import Mathlib

/-!
Verification development for the JA Certificate Generator web application.

The JavaScript sources are embedded shallowly:
* strings are modelled as Lean `String` / `List Char` (the inputs of interest
  are ASCII, so JS UTF-16 length and Lean character counts agree);
* the JS regular expressions used by the parser are unfolded into explicit
  character-list computations, one definition per regex;
* JS `Number` arithmetic in the layout code is modelled by `ℚ` (the layout
  claims are inequalities with large margins, robust to float rounding);
* the PDF-library rendering call is abstracted as an `Except`-returning
  parameter, since pdf-lib is an external collaborator.

Part 1: the FileParser module (file-parser.js).
-/

/-- JS whitespace class `\s` (and `String.prototype.trim`), ASCII subset.
The source inputs of interest contain only ASCII whitespace. -/
def jsIsSpace (c : Char) : Bool :=
  c = ' ' || c = '\t' || c = '\n' || c = '\r' || c = '\x0b' || c = '\x0c'

/-- Regex class `[a-zA-Z]`, as codepoint ranges. -/
def isAsciiLetterB (c : Char) : Bool :=
  (97 ≤ c.toNat && c.toNat ≤ 122) || (65 ≤ c.toNat && c.toNat ≤ 90)

/-- Regex class `\d` = `[0-9]`, as a codepoint range. -/
def isDigitB (c : Char) : Bool :=
  48 ≤ c.toNat && c.toNat ≤ 57

/-- Regex class `\w` = `[A-Za-z0-9_]` (note: underscore is included). -/
def isWordCharB (c : Char) : Bool :=
  isAsciiLetterB c || isDigitB c || c = '_'

/-- Characters kept by `cleanName`'s `replace(/[^\w\s'-]/g, '')`. -/
def keepCharB (c : Char) : Bool :=
  isWordCharB c || jsIsSpace c || c = '\'' || c = '-'

/-- Drop leading JS whitespace (left half of `String.prototype.trim`). -/
def trimLeft (l : List Char) : List Char := l.dropWhile jsIsSpace

/-- Drop trailing JS whitespace (right half of `String.prototype.trim`). -/
def trimRight (l : List Char) : List Char := (l.reverse.dropWhile jsIsSpace).reverse

/-- JS `String.prototype.trim`. -/
def trimL (l : List Char) : List Char := trimRight (trimLeft l)

/-- JS `replace(/\s+/g, r)`: every maximal whitespace run becomes the single
character `r` (`' '` in `cleanName`, `'_'` in `createSafeFilename`). -/
def collapseRuns (r : Char) : List Char → List Char
  | [] => []
  | [c] => [if jsIsSpace c then r else c]
  | c :: d :: rest =>
    if jsIsSpace c && jsIsSpace d then collapseRuns r (d :: rest)
    else (if jsIsSpace c then r else c) :: collapseRuns r (d :: rest)

/-- JS `split(/\s+/)` followed by dropping empty fragments, as in
`isValidName`'s `split(/\s+/).filter(word => word.length > 0)`: the list of
maximal non-whitespace runs. -/
def splitWords : List Char → List (List Char)
  | [] => []
  | [c] => if jsIsSpace c then [] else [[c]]
  | c :: d :: rest =>
    if jsIsSpace c then splitWords (d :: rest)
    else
      if jsIsSpace d then [c] :: splitWords (d :: rest)
      else
        match splitWords (d :: rest) with
        | [] => [[c]]
        | w :: ws => (c :: w) :: ws

/-- JS `split` on a set of single-character delimiters, keeping empty
fragments, as in `split(/[,;\t]/)`, `split(/[,;|]/)`, `split('\n')` and
`split('.')`. -/
def splitOnChars (delims : List Char) : List Char → List (List Char)
  | [] => [[]]
  | c :: cs =>
    if delims.contains c then [] :: splitOnChars delims cs
    else
      match splitOnChars delims cs with
      | [] => [[c]]
      | h :: t => (c :: h) :: t

/-- Substring test, as performed by an unanchored regex or JS `includes`. -/
def hasInfixOf (pat : List Char) : List Char → Bool
  | [] => pat.isEmpty
  | c :: cs => pat.isPrefixOf (c :: cs) || hasInfixOf pat cs

/-- Regex `^[a-zA-Z]` applied to a word produced by `splitWords` (words are
never empty, but the match is total). -/
def wordStartsLetterB (w : List Char) : Bool :=
  match w with
  | [] => false
  | c :: _ => isAsciiLetterB c

/-- Regex `^https?:\/\//` of `isValidName`. -/
def startsWithHttp (t : List Char) : Bool :=
  "http://".toList.isPrefixOf t || "https://".toList.isPrefixOf t

/-- Regex `/\.(com|org|net|edu)/` of `isValidName` (unanchored). -/
def hasDomainPattern (t : List Char) : Bool :=
  hasInfixOf ".com".toList t || hasInfixOf ".org".toList t ||
  hasInfixOf ".net".toList t || hasInfixOf ".edu".toList t

/-- Regex `^\w+\.\w+$` of `isValidName`: since `\w` excludes `'.'`, the
greedy match is equivalent to: maximal word-character run (nonempty), a dot,
then a nonempty all-word-character remainder. -/
def wordDotWordB (t : List Char) : Bool :=
  match t.dropWhile isWordCharB with
  | '.' :: rest => !(t.takeWhile isWordCharB).isEmpty && !rest.isEmpty && rest.all isWordCharB
  | _ => false

/-- The `invalidPatterns.some(...)` check of `FileParser.isValidName`:
just-numbers `^\d+$`, email `@`, URL scheme, domain, file-extension shape. -/
def hasInvalidPatternB (t : List Char) : Bool :=
  (!t.isEmpty && t.all isDigitB) || t.contains '@' || startsWithHttp t ||
  hasDomainPattern t || wordDotWordB t

/-- `FileParser.isValidName` on characters.  The JS early returns are
rendered as an if-chain; the initial `!str` test coincides with the
`length < 2` test on the empty string. -/
def isValidNameL (t0 : List Char) : Bool :=
  let t := trimL t0
  if t.length < 2 then false
  else if 100 < t.length then false
  else if !(t.any isAsciiLetterB) then false
  else if 2 * t.countP isAsciiLetterB < t.length then false
  else if (splitWords t).length < 2 then false
  else if !((splitWords t).all wordStartsLetterB) then false
  else if hasInvalidPatternB t then false
  else true

/-- `FileParser.cleanName` on characters: trim, collapse whitespace runs to
single spaces, strip `[^\w\s'-]`, trim again. -/
def cleanNameL (l : List Char) : List Char :=
  trimL ((collapseRuns ' ' (trimL l)).filter keepCharB)

/-- The `headerKeywords` array of `FileParser.isHeaderLine`. -/
def headerKeywords : List (List Char) :=
  ["student".toList, "name".toList, "class".toList, "list".toList,
   "roster".toList, "grade".toList, "first".toList, "last".toList,
   "full".toList, "students".toList, "names".toList]

/-- JS `String.prototype.toLowerCase`, ASCII subset. -/
def toLowerCh (c : Char) : Char :=
  if 65 ≤ c.toNat && c.toNat ≤ 90 then Char.ofNat (c.toNat + 32) else c

/-- `FileParser.isHeaderLine`: the line mentions a header keyword
(case-insensitively) and does not itself pass name validation. -/
def isHeaderLineL (l : List Char) : Bool :=
  headerKeywords.any (fun k => hasInfixOf k (l.map toLowerCh)) && !(isValidNameL l)

/-- Regex `^\d+\.?\s*` removal in `extractNamesFromLine`. -/
def stripLeadingNumber (l : List Char) : List Char :=
  if (l.takeWhile isDigitB).isEmpty then l
  else
    match l.dropWhile isDigitB with
    | '.' :: rest => rest.dropWhile jsIsSpace
    | rest => rest.dropWhile jsIsSpace

/-- The character class of the bullet-stripping regex.  The source file
carries a mojibake-damaged bullet (the UTF-8 bytes of a bullet read as three
Latin-1 characters), so the class is literally these five characters. -/
def bulletChars : List Char := ['-', '*', 'â', '€', '¢']

/-- Regex `^[-*â€¢]\s*` removal in `extractNamesFromLine`. -/
def stripBullet (l : List Char) : List Char :=
  match l with
  | c :: rest => if bulletChars.contains c then rest.dropWhile jsIsSpace else l
  | [] => []

/-- `FileParser.extractNamesFromLine`: strip a leading list number and a
leading bullet, accept the whole line if it validates, otherwise try the
fragments between `,`/`;`/`|`. -/
def extractNamesFromLineL (line : List Char) : List (List Char) :=
  let c1 := trimL (stripLeadingNumber line)
  let c2 := trimL (stripBullet c1)
  if isValidNameL c2 then [c2]
  else ((splitOnChars [',', ';', '|'] c2).map trimL).filter isValidNameL

/-- The JS first-occurrence duplicate filter
`filter((name, index, array) => array.indexOf(name) === index)`; the same
keep-first semantics as `[...new Set(names)]` (JS Set iteration order is
insertion order). -/
def dedupKeepFirst (l : List (List Char)) : List (List Char) :=
  (l.enum.filter (fun p => l.indexOf p.2 == p.1)).map Prod.snd

/-- `FileParser.cleanAndValidateNames`: clean each candidate, keep nonempty
validated ones, drop duplicates keeping first occurrences. -/
def cleanAndValidateNamesL (names : List (List Char)) : List (List Char) :=
  dedupKeepFirst ((names.map cleanNameL).filter (fun n => !n.isEmpty && isValidNameL n))

/-- `FileParser.extractNamesFromText`: split into trimmed nonempty lines,
skip header lines, extract per-line candidates, then clean/validate/dedup. -/
def extractNamesFromTextL (text : List Char) : List (List Char) :=
  let lines := ((splitOnChars ['\n'] text).map trimL).filter (fun l => !l.isEmpty)
  let names := lines.flatMap (fun line => if isHeaderLineL line then [] else extractNamesFromLineL line)
  cleanAndValidateNamesL names

/-- Cell preprocessing in `parseCsvFile`: `cell.trim().replace(/['"]/g, '')`
(trim first, then strip quotes anywhere). -/
def csvCellClean (cell : List Char) : List Char :=
  (trimL cell).filter (fun c => !(c = '\'' || c = '"'))

/-- `FileParser.parseCsvFile` (applied to already-read file text): split
lines, split cells on `,`/`;`/tab, extract names from every cell; if nothing
was found fall back to whole-text extraction, otherwise deduplicate. -/
def parseCsvFileL (text : List Char) : List (List Char) :=
  let lines := ((splitOnChars ['\n'] text).map trimL).filter (fun l => !l.isEmpty)
  let names := lines.flatMap
    (fun line => ((splitOnChars [',', ';', '\t'] line).map csvCellClean).flatMap extractNamesFromTextL)
  if names.isEmpty then extractNamesFromTextL text else dedupKeepFirst names

/-- `FileParser.isValidName` on strings. -/
def isValidName (s : String) : Bool := isValidNameL s.toList

/-- `FileParser.cleanName` on strings. -/
def cleanName (s : String) : String := ⟨cleanNameL s.toList⟩

/-- `FileParser.extractNamesFromText` on strings. -/
def extractNamesFromText (s : String) : List String :=
  (extractNamesFromTextL s.toList).map (fun l => ⟨l⟩)

/-- `FileParser.parseCsvFile` on strings. -/
def parseCsvFile (s : String) : List String :=
  (parseCsvFileL s.toList).map (fun l => ⟨l⟩)

/-- The spec's NameClassifier interface: `classify` validates a record and,
on success, returns its normalized text.  Composition of the source
functions `isValidName` (the acceptance test applied by
`extractNamesFromLine`) and `cleanName` (the normalization applied by
`cleanAndValidateNames`). -/
def classify (s : String) : Option String :=
  if isValidName s then some (cleanName s) else none

/-!
Part 2: the CertificateGenerator module (certificate-generator.js) and the
type-detection entry points of FileParser.
-/

/-- One entry of the `positions` table of `CertificateGenerator`. -/
structure FieldPos where
  x : ℚ
  y : ℚ
  font : String
  size : ℚ

/-- `positions.studentName` (calibrated for JA Certificate E004). -/
def positionStudentName : FieldPos := ⟨500, 480, "Helvetica-Bold", 18⟩

/-- `positions.schoolName`. -/
def positionSchoolName : FieldPos := ⟨500, 253, "Helvetica", 14⟩

/-- `positions.date`. -/
def positionDate : FieldPos := ⟨500, 109, "Helvetica", 12⟩

/-- `positions.jaVolunteer`. -/
def positionJaVolunteer : FieldPos := ⟨380, 182, "Times-Italic", 14⟩

/-- `positions.teacher`. -/
def positionTeacher : FieldPos := ⟨645, 182, "Times-Italic", 14⟩

/-- `CertificateGenerator.getTextWidth`: per-font average character width
times character count.  JS float arithmetic is modelled exactly over `ℚ`
(0.65 = 13/20, 0.55 = 11/20, 0.58 = 29/50). -/
def getTextWidth (text : String) (font : String) (size : ℚ) : ℚ :=
  let averageCharWidth : ℚ :=
    if font = "Helvetica-Bold" then size * (13 / 20)
    else if font = "Times-Italic" then size * (11 / 20)
    else size * (29 / 50)
  (text.length : ℚ) * averageCharWidth

/-- The x coordinate drawn by `CertificateGenerator.addText`:
`Math.max(50, Math.min(centeredX, pageWidth - textWidth - 50))` with
`centeredX = position.x - textWidth / 2`. -/
def clampedTextX (anchorX textWidth pageWidth : ℚ) : ℚ :=
  max 50 (min (anchorX - textWidth / 2) (pageWidth - textWidth - 50))

/-- `addText`'s x coordinate for a field of the `positions` table. -/
def addTextX (text : String) (pos : FieldPos) (pageWidth : ℚ) : ℚ :=
  clampedTextX pos.x (getTextWidth text pos.font pos.size) pageWidth

/-- Character class kept by `createSafeFilename`'s
`replace(/[^a-zA-Z0-9\s-_]/g, '')`. -/
def fnameKeepB (c : Char) : Bool :=
  isAsciiLetterB c || isDigitB c || jsIsSpace c || c = '-' || c = '_'

/-- `CertificateGenerator.createSafeFilename` on characters: strip
disallowed characters, turn whitespace runs into `'_'`, lowercase, append
the fixed suffix. -/
def createSafeFilenameL (l : List Char) : List Char :=
  (collapseRuns '_' (l.filter fnameKeepB)).map toLowerCh ++ "_certificate.pdf".toList

/-- `CertificateGenerator.createSafeFilename`. -/
def createSafeFilename (s : String) : String := ⟨createSafeFilenameL s.toList⟩

/-- One element of the array returned by `generateBulkCertificates`.  The
pdf bytes type is abstract (`β`); fields absent in JS on one of the two
branches are `Option`s. -/
structure CertResult (β : Type) where
  studentName : String
  filename : String
  pdfBytes : Option β
  error : Option String
  success : Bool
deriving DecidableEq

/-- The body of one loop iteration of `generateBulkCertificates`: the
`generateCertificate` call is the external pdf-lib rendering, abstracted as
the `render` parameter; `.ok` is a normal return, `.error` a thrown
exception caught by the per-item `try/catch`. -/
def renderOne {β : Type} (render : String → Except String β) (studentName : String) :
    CertResult β :=
  match render studentName with
  | .ok b => ⟨studentName, createSafeFilename studentName, some b, none, true⟩
  | .error e => ⟨studentName, createSafeFilename studentName, none, some e, false⟩

/-- The argument object passed to the progress callback. -/
structure ProgressUpdate where
  current : Nat
  total : Nat
  student : String
  percentage : ℤ
deriving DecidableEq

/-- JS `Math.round` (round half up), on exact rationals.  The JS value is
computed in binary floating point; for the progress percentages at stake the
difference is immaterial and not load-bearing in any claim. -/
def jsMathRound (x : ℚ) : ℤ := ⌊x + 1 / 2⌋

/-- The progress object for item `i` (0-based) of a batch of `total`:
`{current: i+1, total, student, percentage: Math.round((i+1)/total*100)}`. -/
def progressUpdateFor (total i : Nat) (student : String) : ProgressUpdate :=
  ⟨i + 1, total, student, jsMathRound (((i + 1 : ℚ) / total) * 100)⟩

/-- Observable events of one batch run, in program order: progress-callback
invocations and completed per-item results. -/
inductive BatchEvent (β : Type) where
  | progress (u : ProgressUpdate)
  | item (r : CertResult β)
deriving DecidableEq

/-- The loop of `generateBulkCertificates`, carrying the 0-based loop index.
Per iteration the source first invokes the progress callback (when one was
supplied; its return value is discarded), then renders, then records the
success or the caught failure and continues with the remaining names.  The
second component is the event trace.  Modelled callbacks return normally
(a JS callback that throws is outside this model). -/
def generateBulkAux {α β : Type} (render : String → Except String β)
    (cb : Option (ProgressUpdate → α)) (total : Nat) :
    Nat → List String → List (CertResult β) × List (BatchEvent β)
  | _, [] => ([], [])
  | i, n :: rest =>
    let u := progressUpdateFor total i n
    let r := renderOne render n
    let p := generateBulkAux render cb total (i + 1) rest
    (r :: p.1,
      (match cb with
       | some _ => [BatchEvent.progress u]
       | none => []) ++ BatchEvent.item r :: p.2)

/-- `CertificateGenerator.generateBulkCertificates`, with its event trace. -/
def generateBulkCertificatesFull {α β : Type} (render : String → Except String β)
    (cb : Option (ProgressUpdate → α)) (names : List String) :
    List (CertResult β) × List (BatchEvent β) :=
  generateBulkAux render cb names.length 0 names

/-- `CertificateGenerator.generateBulkCertificates`: the returned
certificates array. -/
def generateBulkCertificates {α β : Type} (render : String → Except String β)
    (cb : Option (ProgressUpdate → α)) (names : List String) : List (CertResult β) :=
  (generateBulkCertificatesFull render cb names).1

/-- Data of one archive entry produced by `createZipFile`. -/
inductive ZipData (β : Type) where
  | pdf (bytes : Option β)
  | summary (text : String)
deriving DecidableEq

/-- JSZip's `zip.file(name, data)`: entries are keyed by path, so adding a
path that already exists replaces its data (external-library semantics per
JSZip's documentation; nothing in the repository disambiguates names). -/
def zipFilePut {β : Type} (entries : List (String × ZipData β)) (name : String)
    (d : ZipData β) : List (String × ZipData β) :=
  if entries.any (fun e => e.1 = name) then
    entries.map (fun e => if e.1 = name then (name, d) else e)
  else entries ++ [(name, d)]

/-- `CertificateGenerator.createSummaryText`; the `new Date()` timestamp is
the `generatedOn` parameter. -/
def createSummaryText {β : Type} (generatedOn : String)
    (certificates : List (CertResult β)) : String :=
  let successful := certificates.filter (·.success)
  let failed := certificates.filter (fun c => !c.success)
  let base := "Certificate Generation Summary\n" ++ "Generated on: " ++ generatedOn ++ "\n\n" ++
    "Total certificates requested: " ++ toString certificates.length ++ "\n" ++
    "Successfully generated: " ++ toString successful.length ++ "\n" ++
    "Failed: " ++ toString failed.length ++ "\n\n"
  let s1 := if successful.length > 0 then
      "Successfully Generated:\n" ++ ⟨List.replicate 30 '-'⟩ ++ "\n" ++
      String.join (successful.map (fun c => "• " ++ c.studentName ++ "\n")) ++ "\n"
    else ""
  let s2 := if failed.length > 0 then
      "Failed to Generate:\n" ++ ⟨List.replicate 30 '-'⟩ ++ "\n" ++
      String.join (failed.map (fun c =>
        "• " ++ c.studentName ++ ": " ++
        (match c.error with | some e => e | none => "undefined") ++ "\n"))
    else ""
  base ++ s1 ++ s2

/-- `CertificateGenerator.createZipFile`: add each successful certificate
under its derived filename, then the summary file. -/
def createZipFile {β : Type} (generatedOn : String)
    (certificates : List (CertResult β)) : List (String × ZipData β) :=
  let successfulCerts := certificates.filter (·.success)
  let z := successfulCerts.foldl
    (fun z c => zipFilePut z c.filename (ZipData.pdf c.pdfBytes)) []
  zipFilePut z "certificate_summary.txt"
    (ZipData.summary (createSummaryText generatedOn certificates))

/-- The parser table `supportedFormats` maps each MIME key to one of these
five parsing routines. -/
inductive ParserKind where
  | text
  | csv
  | docx
  | xlsx
  | pdf
deriving DecidableEq

/-- Key lookup in `this.supportedFormats` (constructor of `FileParser`). -/
def parserFor (mime : String) : Option ParserKind :=
  if mime = "text/plain" then some ParserKind.text
  else if mime = "text/csv" then some ParserKind.csv
  else if mime = "application/vnd.openxmlformats-officedocument.wordprocessingml.document" then some ParserKind.docx
  else if mime = "application/vnd.openxmlformats-officedocument.spreadsheetml.sheet" then some ParserKind.xlsx
  else if mime = "application/pdf" then some ParserKind.pdf
  else if mime = "application/vnd.ms-excel" then some ParserKind.xlsx
  else if mime = "text/comma-separated-values" then some ParserKind.csv
  else none

/-- The `extensionMap` of `FileParser.detectFileType`. -/
def extensionMapLookup (ext : String) : Option String :=
  if ext = "txt" then some "text/plain"
  else if ext = "csv" then some "text/csv"
  else if ext = "docx" then some "application/vnd.openxmlformats-officedocument.wordprocessingml.document"
  else if ext = "doc" then some "application/vnd.openxmlformats-officedocument.wordprocessingml.document"
  else if ext = "xlsx" then some "application/vnd.openxmlformats-officedocument.spreadsheetml.sheet"
  else if ext = "xls" then some "application/vnd.ms-excel"
  else if ext = "pdf" then some "application/pdf"
  else none

/-- `file.name.toLowerCase().split('.').pop()`: the fragment after the last
dot, or the whole lowercased name when there is none. -/
def fileExtension (fileName : String) : String :=
  ⟨(splitOnChars ['.'] (fileName.toList.map toLowerCh)).getLastD []⟩

/-- `FileParser.detectFileType` (file size/logging omitted): prefer a
nonempty MIME type recognized by `supportedFormats`, otherwise map the
extension, defaulting to `'text/plain'`. -/
def detectFileType (mimeType fileName : String) : String :=
  if !(mimeType == "") && (parserFor mimeType).isSome then mimeType
  else (extensionMapLookup (fileExtension fileName)).getD "text/plain"

/-- The dispatch of `FileParser.parseFile`: parse with the routine for the
detected type, falling back to `parseTextFile` for an unknown type. -/
def parseFileParserKind (mimeType fileName : String) : ParserKind :=
  match parserFor (detectFileType mimeType fileName) with
  | some k => k
  | none => ParserKind.text

/-!
Part 3: auxiliary specification-side definitions used to state claims.
-/

/-- The character set the specification asserts survives `cleanName`:
letters, digits, whitespace, apostrophe, hyphen (note: no underscore).
Stated from the spec's words, for comparison against the implementation. -/
def specCleanChar (c : Char) : Bool :=
  isAsciiLetterB c || isDigitB c || jsIsSpace c || c = '\'' || c = '-'

/-- The claimed ordering discipline for progress events: every progress
notification for a student is preceded in the trace by that student's
completed item.  Stated from the claim's words, for comparison against the
trace the implementation produces. -/
def ProgressAfterCompletion {β : Type} (tr : List (BatchEvent β)) : Prop :=
  ∀ (i : Nat) (u : ProgressUpdate), tr[i]? = some (BatchEvent.progress u) →
    ∃ (j : Nat) (r : CertResult β), j < i ∧ tr[j]? = some (BatchEvent.item r) ∧
      CertResult.studentName r = u.student

/-- A 60-character student name (such names arise from e.g. multiple family
names); at Helvetica-Bold 18 its estimated width is 702 points. -/
def longName60 : String := ⟨List.replicate 60 'A'⟩

/-!
Part 4: generic lemmas about the character-level building blocks.
-/

theorem isDigitB_not_letter {c : Char} (h : isDigitB c = true) : isAsciiLetterB c = false := by
  simp only [isDigitB, isAsciiLetterB, Bool.and_eq_true, Bool.or_eq_false_iff,
    Bool.and_eq_false_iff, decide_eq_true_eq, decide_eq_false_iff_not, not_le] at h ⊢
  omega

theorem mem_dropWhile_of_mem {α : Type} {p : α → Bool} {c : α} :
    ∀ {l : List α}, c ∈ l → p c = false → c ∈ l.dropWhile p := by
  intro l hc hp
  induction l with
  | nil => cases hc
  | cons a t ih =>
    rw [List.dropWhile_cons]
    by_cases ha : p a = true
    · simp only [ha, if_true]
      rcases List.mem_cons.mp hc with h | h
      · subst h; rw [hp] at ha; cases ha
      · exact ih h
    · simp only [Bool.not_eq_true] at ha
      simp [ha, hc]

theorem head?_dropWhile_false {α : Type} {p : α → Bool} :
    ∀ {l : List α} {c : α}, (l.dropWhile p).head? = some c → p c = false := by
  intro l
  induction l with
  | nil => intro c h; cases h
  | cons a t ih =>
    intro c h
    rw [List.dropWhile_cons] at h
    by_cases ha : p a = true
    · rw [if_pos ha] at h; exact ih h
    · rw [if_neg ha] at h
      simp only [List.head?_cons, Option.some.injEq] at h
      subst h; simpa using ha

theorem dropWhile_eq_self_of_all {α : Type} {p : α → Bool} {l : List α}
    (h : ∀ c ∈ l, p c = false) : l.dropWhile p = l := by
  cases l with
  | nil => rfl
  | cons a t => rw [List.dropWhile_cons, if_neg (by simp [h a (by simp)])]

theorem trimRight_prefix_self (l : List Char) : trimRight l <+: l := by
  unfold trimRight
  conv_rhs => rw [← List.reverse_reverse l]
  exact List.reverse_prefix.mpr (List.dropWhile_suffix jsIsSpace)

theorem trimL_subset {l : List Char} : ∀ {c : Char}, c ∈ trimL l → c ∈ l := by
  intro c hc
  unfold trimL at hc
  have h1 : c ∈ trimLeft l := (trimRight_prefix_self (trimLeft l)).subset hc
  exact (List.dropWhile_suffix jsIsSpace).subset h1

theorem mem_trimL_of_mem {l : List Char} {c : Char} (hc : c ∈ l)
    (hp : jsIsSpace c = false) : c ∈ trimL l := by
  unfold trimL trimRight
  rw [List.mem_reverse]
  apply mem_dropWhile_of_mem _ hp
  rw [List.mem_reverse]
  exact mem_dropWhile_of_mem hc hp

theorem head?_trimL_false {l : List Char} {c : Char} (h : (trimL l).head? = some c) :
    jsIsSpace c = false := by
  unfold trimL at h
  cases he : trimRight (trimLeft l) with
  | nil => rw [he] at h; cases h
  | cons a t =>
    rw [he] at h
    simp only [List.head?_cons, Option.some.injEq] at h
    have hpre := trimRight_prefix_self (trimLeft l)
    rw [he] at hpre
    obtain ⟨r, hr⟩ := hpre
    have ha : (trimLeft l).head? = some a := by rw [← hr]; rfl
    rw [← h]
    exact head?_dropWhile_false ha

theorem getLast?_trimL_false {l : List Char} {c : Char}
    (h : (trimL l).getLast? = some c) : jsIsSpace c = false := by
  unfold trimL trimRight at h
  rw [List.getLast?_eq_head?_reverse, List.reverse_reverse] at h
  exact head?_dropWhile_false h

theorem trimLeft_eq_self_of_head {l : List Char}
    (h : ∀ c, l.head? = some c → jsIsSpace c = false) : trimLeft l = l := by
  cases l with
  | nil => rfl
  | cons a t =>
    unfold trimLeft
    rw [List.dropWhile_cons, if_neg (by simp [h a rfl])]

theorem trimRight_eq_self_of_getLast {l : List Char}
    (h : ∀ c, l.getLast? = some c → jsIsSpace c = false) : trimRight l = l := by
  unfold trimRight
  have : l.reverse.dropWhile jsIsSpace = l.reverse := by
    cases hr : l.reverse with
    | nil => rfl
    | cons a t =>
      rw [List.dropWhile_cons, if_neg ?_]
      have : l.getLast? = some a := by
        rw [List.getLast?_eq_head?_reverse, hr]; rfl
      simp [h a this]
  rw [this, List.reverse_reverse]

theorem trimL_idem (l : List Char) : trimL (trimL l) = trimL l := by
  show trimRight (trimLeft (trimL l)) = trimL l
  rw [trimLeft_eq_self_of_head (fun c hc => head?_trimL_false hc),
    trimRight_eq_self_of_getLast (fun c hc => getLast?_trimL_false hc)]

theorem isValidNameL_elim {l : List Char} (h : isValidNameL l = true) :
    2 ≤ (trimL l).length ∧ (trimL l).length ≤ 100 ∧
    (trimL l).any isAsciiLetterB = true ∧
    (trimL l).length ≤ 2 * (trimL l).countP isAsciiLetterB ∧
    2 ≤ (splitWords (trimL l)).length ∧
    (splitWords (trimL l)).all wordStartsLetterB = true ∧
    hasInvalidPatternB (trimL l) = false := by
  simp only [isValidNameL] at h
  split_ifs at h with g1 g2 g3 g4 g5 g6 g7
  refine ⟨by omega, by omega, ?_, by omega, by omega, ?_, ?_⟩
  · revert g3; cases (trimL l).any isAsciiLetterB <;> simp
  · revert g6; cases (splitWords (trimL l)).all wordStartsLetterB <;> simp
  · revert g7; cases hasInvalidPatternB (trimL l) <;> simp

theorem isValidNameL_intro {l : List Char}
    (h1 : 2 ≤ (trimL l).length) (h2 : (trimL l).length ≤ 100)
    (h3 : (trimL l).any isAsciiLetterB = true)
    (h4 : (trimL l).length ≤ 2 * (trimL l).countP isAsciiLetterB)
    (h5 : 2 ≤ (splitWords (trimL l)).length)
    (h6 : (splitWords (trimL l)).all wordStartsLetterB = true)
    (h7 : hasInvalidPatternB (trimL l) = false) : isValidNameL l = true := by
  simp only [isValidNameL]
  split_ifs with g1 g2 g3 g4 g5 g6 g7
  · omega
  · omega
  · rw [h3] at g3; cases g3
  · omega
  · omega
  · rw [h6] at g6; cases g6
  · rw [h7] at g7; cases g7
  · rfl

theorem prefix_trimL {pat l : List Char} (hns : ∀ c ∈ pat, jsIsSpace c = false)
    (h : pat <+: l) : pat <+: trimL l := by
  obtain ⟨rest, hrest⟩ := h
  subst hrest
  cases pat with
  | nil => exact List.nil_prefix
  | cons a pat' =>
    have ha : jsIsSpace a = false := hns a (by simp)
    have h1 : trimLeft ((a :: pat') ++ rest) = (a :: pat') ++ rest := by
      simp only [trimLeft, List.cons_append, List.dropWhile_cons, ha]
      simp
    unfold trimL
    rw [h1]
    unfold trimRight
    rw [List.reverse_append, List.dropWhile_append]
    by_cases he : (rest.reverse.dropWhile jsIsSpace).isEmpty = true
    · rw [if_pos he]
      have hall : (a :: pat').reverse.dropWhile jsIsSpace = (a :: pat').reverse :=
        dropWhile_eq_self_of_all (by intro c hc; exact hns c (List.mem_reverse.mp hc))
      rw [hall, List.reverse_reverse]
    · rw [if_neg he, List.reverse_append, List.reverse_reverse]
      exact ⟨_, rfl⟩

theorem eq_or_mem_of_mem_collapseRuns {r c : Char} :
    ∀ {l : List Char}, c ∈ collapseRuns r l → c = r ∨ (c ∈ l ∧ jsIsSpace c = false) := by
  intro l
  induction l with
  | nil => intro h; cases h
  | cons a t ih =>
    intro h
    cases t with
    | nil =>
      simp only [collapseRuns, List.mem_singleton] at h
      by_cases ha : jsIsSpace a = true
      · rw [if_pos ha] at h; exact Or.inl h
      · rw [if_neg ha] at h
        subst h
        exact Or.inr ⟨by simp, by simpa using ha⟩
    | cons b t2 =>
      rw [collapseRuns] at h
      by_cases hab : (jsIsSpace a && jsIsSpace b) = true
      · rw [if_pos hab] at h
        rcases ih h with h1 | ⟨h2, h3⟩
        · exact Or.inl h1
        · exact Or.inr ⟨List.mem_cons_of_mem a h2, h3⟩
      · rw [if_neg hab] at h
        rcases List.mem_cons.mp h with h1 | h1
        · by_cases ha : jsIsSpace a = true
          · rw [if_pos ha] at h1; exact Or.inl h1
          · rw [if_neg ha] at h1
            subst h1
            exact Or.inr ⟨by simp, by simpa using ha⟩
        · rcases ih h1 with h2 | ⟨h3, h4⟩
          · exact Or.inl h2
          · exact Or.inr ⟨List.mem_cons_of_mem a h3, h4⟩

/-!
Part 5: claim theorems (C1, C3, C5, C8, C10).
-/

/-- C1 (counterexample): on the CSV input of the claim, table-mode
extraction does not return the two student names alone — the claimed value
is wrong. -/
theorem parseCsvFile_header_not_excluded :
    parseCsvFile "Student Name,Grade\nJohn Smith,K\nMaria Garcia,K" ≠
      ["John Smith", "Maria Garcia"] := by decide

/-- C1 (amended): on that CSV input `parseCsvFile` returns
["Student Name", "John Smith", "Maria Garcia"]: the single-token grade
values are excluded, but the header cell "Student Name" is itself accepted,
because `isHeaderLine` exempts any line that passes `isValidName`, and
"Student Name" is two capitalized words. -/
theorem parseCsvFile_header_scenario :
    parseCsvFile "Student Name,Grade\nJohn Smith,K\nMaria Garcia,K" =
      ["Student Name", "John Smith", "Maria Garcia"] ∧
    isValidName "Student Name" = true ∧
    isHeaderLineL "Student Name".toList = false := by decide

/-- C3 (counterexample): a 60-character student name at Helvetica-Bold 18
has estimated width 702 ≤ 792 = page width, yet the clamped x coordinate 50
leaves the text overrunning the right margin: 50 + 702 > 792 - 50. -/
theorem addText_overrun_counterexample :
    getTextWidth longName60 "Helvetica-Bold" 18 = 702 ∧
    getTextWidth longName60 "Helvetica-Bold" 18 ≤ 792 ∧
    addTextX longName60 positionStudentName 792 = 50 ∧
    ¬(addTextX longName60 positionStudentName 792 +
        getTextWidth longName60 "Helvetica-Bold" 18 ≤ 792 - 50) := by
  have hw : getTextWidth longName60 "Helvetica-Bold" 18 = 702 := by
    unfold getTextWidth
    rw [if_pos rfl, show longName60.length = 60 from by decide]
    norm_num
  have hx : addTextX longName60 positionStudentName 792 = 50 := by
    show clampedTextX 500 (getTextWidth longName60 "Helvetica-Bold" 18) 792 = 50
    rw [hw]
    unfold clampedTextX
    rw [show (500 : ℚ) - 702 / 2 = 149 by norm_num,
      show (792 : ℚ) - 702 - 50 = 40 by norm_num,
      min_eq_right (by norm_num : (40 : ℚ) ≤ 149),
      max_eq_left (by norm_num : (40 : ℚ) ≤ 50)]
  refine ⟨hw, by rw [hw]; norm_num, hx, ?_⟩
  rw [hw, hx]
  norm_num

/-- C3 (amended): the x coordinate drawn by `addText` is always at least 50,
and the text also stays inside the right margin
(`x + width ≤ pageWidth - 50`) whenever the estimated width is at most
`pageWidth - 100`; for estimated widths between `pageWidth - 100` and the
page width the lower clamp wins and the text overruns the right margin. -/
theorem addText_stays_in_margins (text : String) (pos : FieldPos) (pageWidth : ℚ) :
    50 ≤ addTextX text pos pageWidth ∧
    (getTextWidth text pos.font pos.size ≤ pageWidth - 100 →
      addTextX text pos pageWidth + getTextWidth text pos.font pos.size ≤ pageWidth - 50) := by
  constructor
  · exact le_max_left _ _
  · intro h
    have hd : (50 : ℚ) ≤ pageWidth - getTextWidth text pos.font pos.size - 50 := by linarith
    have hle : clampedTextX pos.x (getTextWidth text pos.font pos.size) pageWidth ≤
        pageWidth - getTextWidth text pos.font pos.size - 50 :=
      max_le hd (min_le_right _ _)
    have h2 : addTextX text pos pageWidth ≤
        pageWidth - getTextWidth text pos.font pos.size - 50 := hle
    linarith

/-- C3 (witness): the bounds instantiated at "John Smith" on the student
name field of a 792-point-wide page. -/
theorem addText_stays_in_margins_witness :
    50 ≤ addTextX "John Smith" positionStudentName 792 ∧
    addTextX "John Smith" positionStudentName 792 +
      getTextWidth "John Smith" positionStudentName.font positionStudentName.size ≤ 792 - 50 :=
  ⟨(addText_stays_in_margins "John Smith" positionStudentName 792).1,
   (addText_stays_in_margins "John Smith" positionStudentName 792).2 (by
     show getTextWidth "John Smith" "Helvetica-Bold" 18 ≤ 792 - 100
     unfold getTextWidth
     rw [if_pos rfl, show ("John Smith".length) = 10 from by decide]
     norm_num)⟩

/-- C5: a record containing an '@', starting with a URL scheme, or
consisting entirely of digits is rejected by the classifier: `isValidName`
is false and `classify` returns none. -/
theorem classifier_rejects_structural (s : String)
    (h : '@' ∈ s.toList ∨ startsWithHttp s.toList = true ∨ s.toList.all isDigitB = true) :
    isValidName s = false ∧ classify s = none := by
  have hv : isValidName s = false := by
    cases hval : isValidNameL s.toList with
    | false => exact hval
    | true =>
      exfalso
      obtain ⟨hl1, hl2, hany, hcnt, hw2, hwall, hpat⟩ := isValidNameL_elim hval
      rcases h with hat | hhttp | hdig
      · have hmem : '@' ∈ trimL s.toList := mem_trimL_of_mem hat (by decide)
        have hcont : (trimL s.toList).contains '@' = true := by
          simp only [List.contains, List.elem_iff]
          exact hmem
        have htrue : hasInvalidPatternB (trimL s.toList) = true := by
          simp only [hasInvalidPatternB, hcont, Bool.or_true, Bool.true_or]
        rw [htrue] at hpat
        cases hpat
      · simp only [startsWithHttp, Bool.or_eq_true] at hhttp
        have hh : startsWithHttp (trimL s.toList) = true := by
          simp only [startsWithHttp, Bool.or_eq_true]
          rcases hhttp with h1 | h1
          · exact Or.inl (List.isPrefixOf_iff_prefix.mpr
              (prefix_trimL (by decide) (List.isPrefixOf_iff_prefix.mp h1)))
          · exact Or.inr (List.isPrefixOf_iff_prefix.mpr
              (prefix_trimL (by decide) (List.isPrefixOf_iff_prefix.mp h1)))
        have htrue : hasInvalidPatternB (trimL s.toList) = true := by
          simp only [hasInvalidPatternB, hh, Bool.or_true, Bool.true_or]
        rw [htrue] at hpat
        cases hpat
      · rw [List.any_eq_true] at hany
        obtain ⟨c, hc, hcl⟩ := hany
        have hcd : isDigitB c = true := by
          rw [List.all_eq_true] at hdig
          exact hdig c (trimL_subset hc)
        rw [isDigitB_not_letter hcd] at hcl
        cases hcl
  exact ⟨hv, by simp [classify, hv]⟩

/-- C5 (witness): a concrete record with an '@' is rejected. -/
theorem classifier_rejects_structural_witness :
    isValidName "john@example Smith" = false ∧ classify "john@example Smith" = none :=
  classifier_rejects_structural _ (Or.inl (by decide))

/-- C8 (counterexample): `cleanName` keeps underscores (JS `\w` includes
them), and because punctuation is removed after whitespace collapsing, the
output "a  b" retains a double space — both contradicting the claimed output
description. -/
theorem cleanName_claim_false :
    cleanName "a_b c" = "a_b c" ∧
    ¬((cleanName "a_b c").toList.all specCleanChar = true) ∧
    cleanName "a ! b" = "a  b" ∧
    hasInfixOf [' ', ' '] (cleanName "a ! b").toList = true := by decide

/-- C8 (amended): every character surviving `cleanName` is a JS word
character (letter, digit or underscore), a plain space, an apostrophe or a
hyphen — in particular the only whitespace in the output is `' '` — and the
output carries no leading or trailing whitespace.  (Runs of spaces can
remain when punctuation between spaces is removed, since removal happens
after collapapsing.) -/
theorem cleanName_output_shape (s : String) :
    (∀ c ∈ (cleanName s).toList, (isWordCharB c || c = ' ' || c = '\'' || c = '-') = true) ∧
    trimL (cleanName s).toList = (cleanName s).toList := by
  constructor
  · intro c hc
    have hc' : c ∈ cleanNameL s.toList := hc
    have h1 : c ∈ (collapseRuns ' ' (trimL s.toList)).filter keepCharB := trimL_subset hc'
    have h2 := (List.mem_filter.mp h1).2
    have h3 := (List.mem_filter.mp h1).1
    rcases eq_or_mem_of_mem_collapseRuns h3 with hr | ⟨_, hns⟩
    · subst hr; simp
    · simp only [keepCharB, hns, Bool.or_false, Bool.false_or] at h2
      simp only [Bool.or_eq_true] at h2 ⊢
      tauto
  · show trimL (cleanNameL s.toList) = cleanNameL s.toList
    unfold cleanNameL
    exact trimL_idem _

/-- C8 (witness): the amended character discipline at a concrete input. -/
theorem cleanName_output_shape_witness :
    (isWordCharB 'J' || 'J' = ' ' || 'J' = '\'' || 'J' = '-') = true ∧
    trimL (cleanName "  John  Smith  ").toList = (cleanName "  John  Smith  ").toList :=
  ⟨(cleanName_output_shape "  John  Smith  ").1 'J' (by decide),
   (cleanName_output_shape "  John  Smith  ").2⟩

/-- C10: when the MIME type is absent or not a `supportedFormats` key and
the (lowercased) extension is not in the extension map, `detectFileType`
answers 'text/plain', so `parseFile` dispatches to the plain-text parser —
detection never refuses an input. -/
theorem detectFileType_fallback (mimeType fileName : String)
    (h1 : mimeType = "" ∨ parserFor mimeType = none)
    (h2 : extensionMapLookup (fileExtension fileName) = none) :
    detectFileType mimeType fileName = "text/plain" ∧
    parseFileParserKind mimeType fileName = ParserKind.text := by
  have hcond : (!(mimeType == "") && (parserFor mimeType).isSome) = false := by
    rcases h1 with h | h
    · subst h; simp
    · simp [h]
  have hd : detectFileType mimeType fileName = "text/plain" := by
    simp [detectFileType, hcond, h2]
  refine ⟨hd, ?_⟩
  unfold parseFileParserKind
  rw [hd]
  rfl

/-- C10 (witness): an unrecognized MIME type with an unmapped extension
falls back to plain-text parsing. -/
theorem detectFileType_fallback_witness :
    detectFileType "application/x-foo" "roster.xyz" = "text/plain" ∧
    parseFileParserKind "application/x-foo" "roster.xyz" = ParserKind.text :=
  detectFileType_fallback _ _ (Or.inr (by decide)) (by decide)

/-!
Part 6: claim theorems for the batch pipeline (C2, C6, C7).
-/

theorem renderOne_studentName {β : Type} (render : String → Except String β) (n : String) :
    (renderOne render n).studentName = n := by
  unfold renderOne
  cases render n <;> rfl

theorem generateBulkAux_fst {α β : Type} (render : String → Except String β)
    (cb : Option (ProgressUpdate → α)) (total : Nat) :
    ∀ (i : Nat) (names : List String),
      (generateBulkAux render cb total i names).1 = names.map (renderOne render) := by
  intro i names
  induction names generalizing i with
  | nil => rfl
  | cons n rest ih => simp [generateBulkAux, ih (i + 1)]

/-- C2: the bulk generator returns one result per input name, in input
order, each carrying that name; per item the result is exactly what a
successful or failed render of that name produces (failures are recorded
with `success = false` and the thrown message, and never stop the loop).
Concretely, on ["A B", "C D"] with the render of "C D" forced to fail, the
result is a success entry for "A B" then a failure entry for "C D". -/
theorem generateBulk_per_item {α β : Type} (render : String → Except String β)
    (cb : Option (ProgressUpdate → α)) (names : List String) :
    (generateBulkCertificates render cb names).map CertResult.studentName = names ∧
    (∀ (i : Nat) (h1 : i < (generateBulkCertificates render cb names).length)
       (h2 : i < names.length),
      (generateBulkCertificates render cb names).get ⟨i, h1⟩ =
        renderOne render (names.get ⟨i, h2⟩)) ∧
    generateBulkCertificates
        (fun n => if n = "C D" then Except.error "forced failure" else Except.ok (0 : Nat))
        (none : Option (ProgressUpdate → Unit)) ["A B", "C D"] =
      [⟨"A B", "a_b_certificate.pdf", some 0, none, true⟩,
       ⟨"C D", "c_d_certificate.pdf", none, some "forced failure", false⟩] := by
  refine ⟨?_, ?_, by decide⟩
  · show (generateBulkAux render cb names.length 0 names).1.map CertResult.studentName = names
    rw [generateBulkAux_fst]
    rw [List.map_map]
    have : CertResult.studentName ∘ renderOne render = id := by
      funext n
      exact renderOne_studentName render n
    rw [this, List.map_id]
  · intro i h1 h2
    have he : (generateBulkCertificates render cb names) = names.map (renderOne render) :=
      generateBulkAux_fst render cb names.length 0 names
    rw [List.get_of_eq he ⟨i, h1⟩]
    simp [List.get_eq_getElem, List.getElem_map]

/-- C2 (witness): the per-item description instantiated at a concrete
one-element batch. -/
theorem generateBulk_per_item_witness :
    (generateBulkCertificates (fun _ => Except.ok (0 : Nat))
        (none : Option (ProgressUpdate → Unit)) ["X Y"]).get ⟨0, by decide⟩ =
      renderOne (fun _ => Except.ok (0 : Nat)) "X Y" :=
  (generateBulk_per_item (fun _ => Except.ok (0 : Nat))
    (none : Option (ProgressUpdate → Unit)) ["X Y"]).2.1 0 (by decide) (by decide)

/-- C6 (code bug): "John Smith" and "JOHN SMITH" both render successfully
but derive the same safe filename, and `createZipFile` — whose underlying
JSZip `file()` call replaces an entry of the same path — keeps only ONE pdf
entry for the two successes, silently dropping the earlier certificate
instead of disambiguating. -/
theorem createZipFile_collision_overwrites :
    createSafeFilename "John Smith" = createSafeFilename "JOHN SMITH" ∧
    ((generateBulkCertificates (fun _ => Except.ok (0 : Nat))
        (none : Option (ProgressUpdate → Unit)) ["John Smith", "JOHN SMITH"]).countP
      (·.success) = 2) ∧
    ((createZipFile "2025-01-01 00:00:00"
        (generateBulkCertificates (fun _ => Except.ok (0 : Nat))
          (none : Option (ProgressUpdate → Unit)) ["John Smith", "JOHN SMITH"])).countP
      (fun e => match e.2 with | ZipData.pdf _ => true | ZipData.summary _ => false) = 1) := by
  decide

/-- C7 (counterexample): the progress callback is invoked BEFORE its item is
rendered: in the trace of a one-element batch the progress event appears
first, with no completed item before it, refuting the claimed
after-completion ordering. -/
theorem progress_not_after_completion :
    ¬ ProgressAfterCompletion
      ((generateBulkCertificatesFull (fun _ => Except.ok (0 : Nat))
        (some (fun _ => ())) ["A B"]).2) := by
  intro h
  obtain ⟨j, r, hj, _, _⟩ := h 0 (progressUpdateFor 1 0 "A B") rfl
  exact absurd hj (Nat.not_lt_zero j)

theorem generateBulkAux_snd_some {α β : Type} (render : String → Except String β)
    (f : ProgressUpdate → α) (total : Nat) :
    ∀ (i : Nat) (names : List String),
      (generateBulkAux render (some f) total i names).2 =
        (names.mapIdx (fun j n =>
          [BatchEvent.progress (progressUpdateFor total (i + j) n),
           BatchEvent.item (renderOne render n)])).flatten := by
  intro i names
  induction names generalizing i with
  | nil => rfl
  | cons n rest ih =>
    simp only [generateBulkAux, ih (i + 1), List.mapIdx_cons, List.flatten_cons,
      Nat.add_zero]
    simp only [show ∀ j : Nat, i + 1 + j = i + (j + 1) from fun j => by omega]
    rfl

/-- C7 (amended): the progress callback never influences the result list
(any callback, or none, yields the same certificates), and when a callback
is supplied it is invoked exactly once per input name, in order, with
`{current: i+1, total, student, percentage}` — but immediately BEFORE that
item is rendered, not after it completes: the trace is, per name, a progress
event followed by that name's completed item. -/
theorem progress_trace_shape {α α' β : Type} (render : String → Except String β)
    (f : ProgressUpdate → α) (cb' : Option (ProgressUpdate → α'))
    (names : List String) :
    (generateBulkCertificatesFull render (some f) names).1 =
      (generateBulkCertificatesFull render cb' names).1 ∧
    (generateBulkCertificatesFull render (some f) names).2 =
      (names.mapIdx (fun i n =>
        [BatchEvent.progress (progressUpdateFor names.length i n),
         BatchEvent.item (renderOne render n)])).flatten := by
  constructor
  · show (generateBulkAux render (some f) names.length 0 names).1 =
      (generateBulkAux render cb' names.length 0 names).1
    rw [generateBulkAux_fst, generateBulkAux_fst]
  · have h := generateBulkAux_snd_some render f names.length 0 names
    simpa using h

/-!
Part 7: structure of `collapseRuns`, `splitWords` and `cleanName` — the
machinery behind the duplicate-freedom (C4) and idempotence (C9) claims.
-/

theorem collapseRuns_allspace {r : Char} :
    ∀ {l : List Char}, l ≠ [] → (∀ c ∈ l, jsIsSpace c = true) → collapseRuns r l = [r] := by
  intro l
  induction l with
  | nil => intro h _; cases h rfl
  | cons a t ih =>
    intro _ hall
    have ha : jsIsSpace a = true := hall a (by simp)
    cases t with
    | nil => simp [collapseRuns, ha]
    | cons b t2 =>
      have hb : jsIsSpace b = true := hall b (by simp)
      rw [collapseRuns, if_pos (by rw [ha, hb]; rfl)]
      exact ih (by simp) (fun c hc => hall c (List.mem_cons_of_mem a hc))

theorem collapseRuns_word {r : Char} :
    ∀ {w rest : List Char}, (∀ c ∈ w, jsIsSpace c = false) →
      collapseRuns r (w ++ rest) = w ++ collapseRuns r rest := by
  intro w
  induction w with
  | nil => intro rest _; rfl
  | cons a w' ih =>
    intro rest hw
    have ha : jsIsSpace a = false := hw a (by simp)
    have hw' : ∀ c ∈ w', jsIsSpace c = false := fun c hc => hw c (List.mem_cons_of_mem a hc)
    rw [List.cons_append]
    cases he : w' ++ rest with
    | nil =>
      obtain ⟨h1, h2⟩ := List.append_eq_nil.mp he
      subst h1
      subst h2
      simp [collapseRuns, ha]
    | cons d tail =>
      simp only [collapseRuns, ha, Bool.false_and, Bool.false_eq_true, if_false]
      rw [← he, ih hw', List.cons_append]

theorem collapseRuns_space_word {r d : Char} {tail : List Char} (hd : jsIsSpace d = false) :
    ∀ {sp : List Char}, sp ≠ [] → (∀ c ∈ sp, jsIsSpace c = true) →
      collapseRuns r (sp ++ d :: tail) = r :: collapseRuns r (d :: tail) := by
  intro sp
  induction sp with
  | nil => intro h _; cases h rfl
  | cons s sp' ih =>
    intro _ hall
    have hs : jsIsSpace s = true := hall s (by simp)
    cases sp' with
    | nil =>
      simp only [List.cons_append, List.nil_append, collapseRuns, hs, hd, Bool.true_and,
        Bool.false_eq_true, if_false, if_true]
    | cons s2 sp'' =>
      have hs2 : jsIsSpace s2 = true := hall s2 (by simp)
      rw [List.cons_append]
      have hshape : (s2 :: sp'') ++ d :: tail = s2 :: (sp'' ++ d :: tail) := rfl
      rw [hshape]
      simp only [collapseRuns, hs, hs2, Bool.and_self, if_true]
      rw [← hshape]
      exact ih (by simp) (fun c hc => hall c (List.mem_cons_of_mem s hc))

theorem collapseRuns_head_space {r : Char} :
    ∀ (t : List Char) (d : Char), jsIsSpace d = true →
      ∃ u, collapseRuns r (d :: t) = r :: u := by
  intro t
  induction t with
  | nil => intro d hd; exact ⟨[], by simp [collapseRuns, hd]⟩
  | cons e t2 ih =>
    intro d hd
    by_cases he : jsIsSpace e = true
    · have hstep : collapseRuns r (d :: e :: t2) = collapseRuns r (e :: t2) := by
        simp [collapseRuns, hd, he]
      rw [hstep]
      exact ih e he
    · exact ⟨collapseRuns r (e :: t2), by simp [collapseRuns, hd, he]⟩

theorem collapseRuns_length_le {r : Char} : ∀ (l : List Char),
    (collapseRuns r l).length ≤ l.length := by
  intro l
  induction l with
  | nil => simp [collapseRuns]
  | cons a t ih =>
    cases t with
    | nil => simp [collapseRuns]
    | cons b t2 =>
      by_cases hab : (jsIsSpace a && jsIsSpace b) = true
      · rw [show collapseRuns r (a :: b :: t2) = collapseRuns r (b :: t2) by
          simp [collapseRuns, hab]]
        exact le_trans ih (by simp)
      · rw [show collapseRuns r (a :: b :: t2) =
            (if jsIsSpace a then r else a) :: collapseRuns r (b :: t2) by
          simp only [collapseRuns, if_neg hab]]
        simpa using ih

theorem collapseRuns_countP {r : Char} {q : Char → Bool} (hr : q r = false)
    (hsp : ∀ c, jsIsSpace c = true → q c = false) :
    ∀ (l : List Char), List.countP q (collapseRuns r l) = List.countP q l := by
  intro l
  induction l with
  | nil => rfl
  | cons a t ih =>
    cases t with
    | nil =>
      by_cases ha : jsIsSpace a = true
      · simp [collapseRuns, ha, List.countP_cons, hr, hsp a ha]
      · simp [collapseRuns, ha]
    | cons b t2 =>
      by_cases hab : (jsIsSpace a && jsIsSpace b) = true
      · have hab' := hab
        rw [Bool.and_eq_true] at hab'
        rw [show collapseRuns r (a :: b :: t2) = collapseRuns r (b :: t2) by
          simp [collapseRuns, hab]]
        rw [ih]
        simp [List.countP_cons, hsp a hab'.1]
      · rw [show collapseRuns r (a :: b :: t2) =
            (if jsIsSpace a then r else a) :: collapseRuns r (b :: t2) by
          simp only [collapseRuns, if_neg hab]]
        rw [List.countP_cons, List.countP_cons, ih]
        by_cases ha : jsIsSpace a = true
        · simp [ha, hr, hsp a ha]
        · simp [ha]

theorem collapseRuns_id {l : List Char}
    (h1 : List.Chain' (fun a b => ¬(jsIsSpace a = true ∧ jsIsSpace b = true)) l)
    (h2 : ∀ c ∈ l, jsIsSpace c = true → c = ' ') : collapseRuns ' ' l = l := by
  induction l with
  | nil => rfl
  | cons a t ih =>
    cases t with
    | nil =>
      by_cases ha : jsIsSpace a = true
      · have haeq := h2 a (by simp) ha
        simp [collapseRuns, ha, haeq]
      · simp [collapseRuns, ha]
    | cons b t2 =>
      have hR : ¬(jsIsSpace a = true ∧ jsIsSpace b = true) := (List.chain'_cons.mp h1).1
      have hab : ¬((jsIsSpace a && jsIsSpace b) = true) := by
        intro hc
        rw [Bool.and_eq_true] at hc
        exact hR hc
      rw [show collapseRuns ' ' (a :: b :: t2) =
          (if jsIsSpace a then ' ' else a) :: collapseRuns ' ' (b :: t2) by
        simp only [collapseRuns, if_neg hab]]
      have htail : collapseRuns ' ' (b :: t2) = b :: t2 :=
        ih (List.chain'_cons.mp h1).2 (fun c hc hs => h2 c (List.mem_cons_of_mem a hc) hs)
      rw [htail]
      by_cases ha : jsIsSpace a = true
      · rw [if_pos ha, (h2 a (by simp) ha)]
      · rw [if_neg ha]

theorem splitWords_cons_space {c : Char} {cs : List Char} (h : jsIsSpace c = true) :
    splitWords (c :: cs) = splitWords cs := by
  cases cs with
  | nil => simp [splitWords, h]
  | cons d t => simp [splitWords, h]

theorem splitWords_space_left :
    ∀ {sp l : List Char}, (∀ c ∈ sp, jsIsSpace c = true) →
      splitWords (sp ++ l) = splitWords l := by
  intro sp
  induction sp with
  | nil => intro l _; rfl
  | cons s sp' ih =>
    intro l hall
    rw [List.cons_append, splitWords_cons_space (hall s (by simp))]
    exact ih (fun c hc => hall c (List.mem_cons_of_mem s hc))

theorem splitWords_allspace {l : List Char} (h : ∀ c ∈ l, jsIsSpace c = true) :
    splitWords l = [] := by
  have h2 := splitWords_space_left (l := []) h
  simpa using h2

theorem splitWords_word_left :
    ∀ {w rest : List Char}, (∀ c ∈ w, jsIsSpace c = false) → w ≠ [] →
      (rest = [] ∨ ∃ d t, rest = d :: t ∧ jsIsSpace d = true) →
      splitWords (w ++ rest) = w :: splitWords rest := by
  intro w
  induction w with
  | nil => intro _ _ h _; cases h rfl
  | cons a w' ih =>
    intro rest hw _ hrest
    have ha : jsIsSpace a = false := hw a (by simp)
    cases w' with
    | nil =>
      rcases hrest with h | ⟨d, t, hr, hd⟩
      · subst h; simp [splitWords, ha]
      · subst hr
        simp [splitWords, ha, hd]
    | cons b w'' =>
      have hb : jsIsSpace b = false := hw b (by simp)
      have hih := ih (fun c hc => hw c (List.mem_cons_of_mem a hc)) (by simp) hrest
      rw [show (a :: b :: w'') ++ rest = a :: b :: (w'' ++ rest) from rfl]
      rw [show splitWords (a :: b :: (w'' ++ rest)) =
          (match splitWords (b :: (w'' ++ rest)) with
           | [] => [[a]]
           | w :: ws => (a :: w) :: ws) by simp [splitWords, ha, hb]]
      rw [show splitWords (b :: (w'' ++ rest)) = (b :: w'') :: splitWords rest from hih]

theorem exists_space_word_decomposition (l : List Char) :
    (∀ c ∈ l, jsIsSpace c = true) ∨
    ∃ sp w rest, l = sp ++ w ++ rest ∧ (∀ c ∈ sp, jsIsSpace c = true) ∧ w ≠ [] ∧
      (∀ c ∈ w, jsIsSpace c = false) ∧
      (rest = [] ∨ ∃ d t, rest = d :: t ∧ jsIsSpace d = true) := by
  cases hdw : l.dropWhile jsIsSpace with
  | nil =>
    left
    intro c hc
    have hself : l = l.takeWhile jsIsSpace := by
      conv_lhs => rw [← List.takeWhile_append_dropWhile (p := jsIsSpace) (l := l)]
      rw [hdw, List.append_nil]
    rw [hself] at hc
    exact List.mem_takeWhile_imp hc
  | cons d t =>
    right
    have hd : jsIsSpace d = false := head?_dropWhile_false (by rw [hdw]; rfl)
    have hsplit : l = l.takeWhile jsIsSpace ++ (d :: t) := by
      rw [← hdw, List.takeWhile_append_dropWhile]
    have hsplit2 : (d :: t) = (d :: t).takeWhile (fun c => !jsIsSpace c) ++
        (d :: t).dropWhile (fun c => !jsIsSpace c) :=
      (List.takeWhile_append_dropWhile _ _).symm
    refine ⟨l.takeWhile jsIsSpace, (d :: t).takeWhile (fun c => !jsIsSpace c),
      (d :: t).dropWhile (fun c => !jsIsSpace c), ?_, ?_, ?_, ?_, ?_⟩
    · rw [List.append_assoc, ← hsplit2, ← hsplit]
    · intro c hc; exact List.mem_takeWhile_imp hc
    · rw [List.takeWhile_cons_of_pos (by simp [hd])]
      simp
    · intro c hc
      have := List.mem_takeWhile_imp hc
      simpa using this
    · cases hr : (d :: t).dropWhile (fun c => !jsIsSpace c) with
      | nil => exact Or.inl rfl
      | cons e t2 =>
        refine Or.inr ⟨e, t2, rfl, ?_⟩
        have := head?_dropWhile_false (p := fun c => !jsIsSpace c) (by rw [hr]; rfl)
        simpa using this

theorem splitWords_collapseRuns (l : List Char) :
    splitWords (collapseRuns ' ' l) = splitWords l := by
  have key : ∀ (n : ℕ) (l : List Char), l.length ≤ n →
      splitWords (collapseRuns ' ' l) = splitWords l := by
    intro n
    induction n with
    | zero =>
      intro l hl
      cases l with
      | nil => rfl
      | cons a t => exact absurd hl (by simp)
    | succ n ih =>
      intro l hl
      rcases exists_space_word_decomposition l with hall | ⟨sp, w, rest, rfl, hsp, hwne, hw, hrest⟩
      · rw [splitWords_allspace hall]
        by_cases hl0 : l = []
        · subst hl0; rfl
        · rw [collapseRuns_allspace hl0 hall]
          simp [splitWords, jsIsSpace]
      · have hlen : rest.length ≤ n := by
          have h1 : 1 ≤ w.length := List.length_pos.mpr hwne
          have h2 : (sp ++ w ++ rest).length = sp.length + w.length + rest.length := by
            simp [List.length_append, Nat.add_assoc]
          omega
        have hcshape : collapseRuns ' ' rest = [] ∨
            ∃ d t, collapseRuns ' ' rest = d :: t ∧ jsIsSpace d = true := by
          rcases hrest with hr0 | ⟨d, t, hr1, hd⟩
          · subst hr0; exact Or.inl rfl
          · subst hr1
            obtain ⟨u, hu⟩ := collapseRuns_head_space t d hd
            exact Or.inr ⟨' ', u, hu, by decide⟩
        by_cases hsp0 : sp = []
        · subst hsp0
          simp only [List.nil_append]
          rw [collapseRuns_word hw, splitWords_word_left hw hwne hcshape,
            ih rest hlen, splitWords_word_left hw hwne hrest]
        · obtain ⟨a, w2, rfl⟩ : ∃ a w2, w = a :: w2 := by
            cases w with
            | nil => cases hwne rfl
            | cons a w2 => exact ⟨a, w2, rfl⟩
          have hcol : collapseRuns ' ' (sp ++ (a :: w2) ++ rest) =
              ' ' :: ((a :: w2) ++ collapseRuns ' ' rest) := by
            rw [List.append_assoc]
            rw [show (a :: w2) ++ rest = a :: (w2 ++ rest) from rfl]
            rw [collapseRuns_space_word (hw a (by simp)) hsp0 hsp]
            rw [show (a :: (w2 ++ rest)) = (a :: w2) ++ rest from rfl]
            rw [collapseRuns_word hw]
          rw [hcol, splitWords_cons_space (by decide),
            splitWords_word_left hw hwne hcshape, ih rest hlen,
            List.append_assoc, splitWords_space_left hsp,
            splitWords_word_left hw hwne hrest]
  exact key l.length l (Nat.le_refl _)

theorem splitWords_append_spaces :
    ∀ (x sp2 : List Char), (∀ c ∈ sp2, jsIsSpace c = true) →
      splitWords (x ++ sp2) = splitWords x := by
  have key : ∀ (n : ℕ) (x sp2 : List Char), x.length ≤ n →
      (∀ c ∈ sp2, jsIsSpace c = true) → splitWords (x ++ sp2) = splitWords x := by
    intro n
    induction n with
    | zero =>
      intro x sp2 hl hsp2
      cases x with
      | nil => rw [List.nil_append, splitWords_allspace hsp2]; rfl
      | cons a t => exact absurd hl (by simp)
    | succ n ih =>
      intro x sp2 hl hsp2
      rcases exists_space_word_decomposition x with hall | ⟨sp, w, rest, rfl, hsp, hwne, hw, hrest⟩
      · rw [splitWords_allspace hall, splitWords_allspace]
        intro c hc
        rcases List.mem_append.mp hc with h | h
        · exact hall c h
        · exact hsp2 c h
      · have hlen : rest.length ≤ n := by
          have h1 : 1 ≤ w.length := List.length_pos.mpr hwne
          have h2 : (sp ++ w ++ rest).length = sp.length + w.length + rest.length := by
            simp [List.length_append, Nat.add_assoc]
          omega
        have hshape2 : rest ++ sp2 = [] ∨
            ∃ d t, rest ++ sp2 = d :: t ∧ jsIsSpace d = true := by
          rcases hrest with hr0 | ⟨d, t, hr1, hd⟩
          · subst hr0
            cases hs : sp2 with
            | nil => exact Or.inl (by simp)
            | cons e t2 =>
              refine Or.inr ⟨e, t2, by simp, ?_⟩
              exact hsp2 e (by rw [hs]; simp)
          · subst hr1
            exact Or.inr ⟨d, t ++ sp2, by simp, hd⟩
        have e1 : (sp ++ w ++ rest) ++ sp2 = sp ++ (w ++ (rest ++ sp2)) := by
          simp [List.append_assoc]
        rw [e1, splitWords_space_left hsp, splitWords_word_left hw hwne hshape2,
          ih rest sp2 hlen hsp2]
        have e2 : sp ++ w ++ rest = sp ++ (w ++ rest) := by simp [List.append_assoc]
        rw [e2, splitWords_space_left hsp, splitWords_word_left hw hwne hrest]
  exact fun x sp2 h => key x.length x sp2 (Nat.le_refl _) h

theorem splitWords_trimL (l : List Char) : splitWords (trimL l) = splitWords l := by
  have h1 : splitWords (trimLeft l) = splitWords l := by
    conv_rhs => rw [← List.takeWhile_append_dropWhile (p := jsIsSpace) (l := l)]
    rw [splitWords_space_left (fun c hc => List.mem_takeWhile_imp hc)]
    rfl
  have hdecomp : trimLeft l = trimRight (trimLeft l) ++
      ((trimLeft l).reverse.takeWhile jsIsSpace).reverse := by
    unfold trimRight
    rw [← List.reverse_append, List.takeWhile_append_dropWhile, List.reverse_reverse]
  have h2 : splitWords (trimL l) = splitWords (trimLeft l) := by
    unfold trimL
    conv_rhs => rw [hdecomp]
    rw [splitWords_append_spaces]
    intro c hc
    rw [List.mem_reverse] at hc
    exact List.mem_takeWhile_imp hc
  rw [h2, h1]

theorem space_keepCharB {c : Char} (h : jsIsSpace c = true) : keepCharB c = true := by
  simp [keepCharB, h]

theorem letter_keepCharB {c : Char} (h : isAsciiLetterB c = true) : keepCharB c = true := by
  simp [keepCharB, isWordCharB, h]

theorem splitWords_filter_keep (l : List Char)
    (hall : (splitWords l).all wordStartsLetterB = true) :
    splitWords (l.filter keepCharB) = (splitWords l).map (List.filter keepCharB) := by
  have key : ∀ (n : ℕ) (l : List Char), l.length ≤ n →
      (splitWords l).all wordStartsLetterB = true →
      splitWords (l.filter keepCharB) = (splitWords l).map (List.filter keepCharB) := by
    intro n
    induction n with
    | zero =>
      intro l hl _
      cases l with
      | nil => rfl
      | cons a t => exact absurd hl (by simp)
    | succ n ih =>
      intro l hl hall
      rcases exists_space_word_decomposition l with hsp0 | ⟨sp, w, rest, rfl, hsp, hwne, hw, hrest⟩
      · have hf : l.filter keepCharB = l :=
          List.filter_eq_self.mpr (fun c hc => space_keepCharB (hsp0 c hc))
        rw [hf, splitWords_allspace hsp0]
        rfl
      · have hlen : rest.length ≤ n := by
          have h1 : 1 ≤ w.length := List.length_pos.mpr hwne
          have h2 : (sp ++ w ++ rest).length = sp.length + w.length + rest.length := by
            simp [List.length_append, Nat.add_assoc]
          omega
        have e2 : sp ++ w ++ rest = sp ++ (w ++ rest) := by simp [List.append_assoc]
        have hsl : splitWords (sp ++ w ++ rest) = w :: splitWords rest := by
          rw [e2, splitWords_space_left hsp, splitWords_word_left hw hwne hrest]
        rw [hsl] at hall
        rw [List.all_cons, Bool.and_eq_true] at hall
        obtain ⟨a, w2, rfl⟩ : ∃ a w2, w = a :: w2 := by
          cases w with
          | nil => cases hwne rfl
          | cons a w2 => exact ⟨a, w2, rfl⟩
        have hla : isAsciiLetterB a = true := by
          simpa [wordStartsLetterB] using hall.1
        have hka : keepCharB a = true := letter_keepCharB hla
        have hfsp : sp.filter keepCharB = sp :=
          List.filter_eq_self.mpr (fun c hc => space_keepCharB (hsp c hc))
        have hfw : (a :: w2).filter keepCharB = a :: w2.filter keepCharB :=
          List.filter_cons_of_pos hka
        have hfwns : ∀ c ∈ a :: w2.filter keepCharB, jsIsSpace c = false := by
          intro c hc
          rcases List.mem_cons.mp hc with h | h
          · rw [h]; exact hw a (by simp)
          · exact hw c (List.mem_cons_of_mem a (List.mem_filter.mp h).1)
        have hfrest : rest.filter keepCharB = [] ∨
            ∃ d t, rest.filter keepCharB = d :: t ∧ jsIsSpace d = true := by
          rcases hrest with hr0 | ⟨d, t, hr1, hd⟩
          · subst hr0; exact Or.inl rfl
          · subst hr1
            exact Or.inr ⟨d, t.filter keepCharB, List.filter_cons_of_pos (space_keepCharB hd), hd⟩
        have hfilter : (sp ++ (a :: w2) ++ rest).filter keepCharB =
            sp ++ ((a :: w2.filter keepCharB) ++ rest.filter keepCharB) := by
          rw [List.filter_append, List.filter_append, hfsp, hfw, List.append_assoc]
        rw [hfilter, splitWords_space_left hsp,
          splitWords_word_left hfwns (by simp) hfrest, ih rest hlen hall.2, hsl]
        rw [List.map_cons, hfw]
  exact key l.length l (Nat.le_refl _) hall

theorem chain'_of_nonspace {m : List Char} (h : ∀ c ∈ m, jsIsSpace c = false) :
    List.Chain' (fun a b => ¬(jsIsSpace a = true ∧ jsIsSpace b = true)) m := by
  induction m with
  | nil => simp
  | cons x t ih =>
    cases t with
    | nil => exact List.chain'_singleton x
    | cons y t2 =>
      rw [List.chain'_cons]
      constructor
      · intro hc
        rw [h x (by simp)] at hc
        cases hc.1
      · exact ih (fun c hc => h c (List.mem_cons_of_mem x hc))

theorem chain'_filter_collapse (l : List Char)
    (hall : (splitWords l).all wordStartsLetterB = true) :
    List.Chain' (fun a b => ¬(jsIsSpace a = true ∧ jsIsSpace b = true))
      ((collapseRuns ' ' l).filter keepCharB) := by
  have key : ∀ (n : ℕ) (l : List Char), l.length ≤ n →
      (splitWords l).all wordStartsLetterB = true →
      List.Chain' (fun a b => ¬(jsIsSpace a = true ∧ jsIsSpace b = true))
        ((collapseRuns ' ' l).filter keepCharB) := by
    intro n
    induction n with
    | zero =>
      intro l hl _
      cases l with
      | nil => simp [collapseRuns]
      | cons a t => exact absurd hl (by simp)
    | succ n ih =>
      intro l hl hall
      rcases exists_space_word_decomposition l with hsp0 | ⟨sp, w, rest, rfl, hsp, hwne, hw, hrest⟩
      · by_cases hl0 : l = []
        · subst hl0; simp [collapseRuns]
        · rw [collapseRuns_allspace hl0 hsp0]
          rw [List.filter_cons_of_pos (by decide)]
          exact List.chain'_singleton ' '
      · have hlen : rest.length ≤ n := by
          have h1 : 1 ≤ w.length := List.length_pos.mpr hwne
          have h2 : (sp ++ w ++ rest).length = sp.length + w.length + rest.length := by
            simp [List.length_append, Nat.add_assoc]
          omega
        have e2 : sp ++ w ++ rest = sp ++ (w ++ rest) := by simp [List.append_assoc]
        have hsl : splitWords (sp ++ w ++ rest) = w :: splitWords rest := by
          rw [e2, splitWords_space_left hsp, splitWords_word_left hw hwne hrest]
        rw [hsl] at hall
        rw [List.all_cons, Bool.and_eq_true] at hall
        obtain ⟨a, w2, rfl⟩ : ∃ a w2, w = a :: w2 := by
          cases w with
          | nil => cases hwne rfl
          | cons a w2 => exact ⟨a, w2, rfl⟩
        have hla : isAsciiLetterB a = true := by
          simpa [wordStartsLetterB] using hall.1
        have hka : keepCharB a = true := letter_keepCharB hla
        have hfw : (a :: w2).filter keepCharB = a :: w2.filter keepCharB :=
          List.filter_cons_of_pos hka
        have hfwns : ∀ c ∈ a :: w2.filter keepCharB, jsIsSpace c = false := by
          intro c hc
          rcases List.mem_cons.mp hc with h | h
          · rw [h]; exact hw a (by simp)
          · exact hw c (List.mem_cons_of_mem a (List.mem_filter.mp h).1)
        have hchainfw : List.Chain' (fun a b => ¬(jsIsSpace a = true ∧ jsIsSpace b = true))
            (a :: w2.filter keepCharB) := chain'_of_nonspace hfwns
        have hchainrest := ih rest hlen hall.2
        have hmid : List.Chain' (fun a b => ¬(jsIsSpace a = true ∧ jsIsSpace b = true))
            ((a :: w2.filter keepCharB) ++ (collapseRuns ' ' rest).filter keepCharB) := by
          rw [List.chain'_append]
          refine ⟨hchainfw, hchainrest, ?_⟩
          intro x hx y _
          have hxm : x ∈ a :: w2.filter keepCharB := List.mem_of_mem_getLast? hx
          intro hc
          rw [hfwns x hxm] at hc
          cases hc.1
        by_cases hsp0 : sp = []
        · subst hsp0
          simp only [List.nil_append]
          rw [show (a :: w2) ++ rest = a :: (w2 ++ rest) from rfl]
          rw [show collapseRuns ' ' (a :: (w2 ++ rest)) =
              collapseRuns ' ' ((a :: w2) ++ rest) from rfl]
          rw [collapseRuns_word hw, List.filter_append, hfw]
          exact hmid
        · have hcol : collapseRuns ' ' (sp ++ (a :: w2) ++ rest) =
              ' ' :: ((a :: w2) ++ collapseRuns ' ' rest) := by
            rw [List.append_assoc]
            rw [show (a :: w2) ++ rest = a :: (w2 ++ rest) from rfl]
            rw [collapseRuns_space_word (hw a (by simp)) hsp0 hsp]
            rw [show (a :: (w2 ++ rest)) = (a :: w2) ++ rest from rfl]
            rw [collapseRuns_word hw]
          rw [hcol, List.filter_cons_of_pos (by decide), List.filter_append, hfw]
          rw [show (' ' :: ((a :: w2.filter keepCharB) ++
              (collapseRuns ' ' rest).filter keepCharB)) =
              [' '] ++ ((a :: w2.filter keepCharB) ++
                (collapseRuns ' ' rest).filter keepCharB) from rfl]
          rw [List.chain'_append]
          refine ⟨List.chain'_singleton ' ', hmid, ?_⟩
          intro x hx y hy
          simp only [List.getLast?_singleton, Option.mem_def, Option.some.injEq] at hx
          subst hx
          simp only [List.cons_append, List.head?_cons, Option.mem_def, Option.some.injEq] at hy
          subst hy
          intro hc
          rw [hw a (by simp)] at hc
          cases hc.2
  exact key l.length l (Nat.le_refl _) hall

theorem space_not_letter {c : Char} (h : jsIsSpace c = true) : isAsciiLetterB c = false := by
  simp only [jsIsSpace, Bool.or_eq_true, decide_eq_true_eq] at h
  rcases h with ((((h | h) | h) | h) | h) | h <;> subst h <;> decide

theorem trimL_length_le (l : List Char) : (trimL l).length ≤ l.length :=
  ((trimRight_prefix_self (trimLeft l)).sublist.trans
    (List.dropWhile_suffix jsIsSpace).sublist).length_le

theorem trimL_countP {q : Char → Bool} (hq : ∀ c, jsIsSpace c = true → q c = false)
    (l : List Char) : List.countP q (trimL l) = List.countP q l := by
  have h1 : List.countP q (trimLeft l) = List.countP q l := by
    unfold trimLeft
    conv_rhs => rw [← List.takeWhile_append_dropWhile (p := jsIsSpace) (l := l)]
    rw [List.countP_append]
    have hz : List.countP q (l.takeWhile jsIsSpace) = 0 := by
      rw [List.countP_eq_zero]
      intro a ha
      simp [hq a (List.mem_takeWhile_imp ha)]
    omega
  have h2 : List.countP q (trimRight (trimLeft l)) = List.countP q (trimLeft l) := by
    unfold trimRight
    rw [List.countP_reverse]
    conv_rhs => rw [← List.countP_reverse q (trimLeft l)]
    conv_rhs => rw [← List.takeWhile_append_dropWhile (p := jsIsSpace)
      (l := (trimLeft l).reverse)]
    rw [List.countP_append]
    have hz : List.countP q ((trimLeft l).reverse.takeWhile jsIsSpace) = 0 := by
      rw [List.countP_eq_zero]
      intro a ha
      simp [hq a (List.mem_takeWhile_imp ha)]
    omega
  rw [show trimL l = trimRight (trimLeft l) from rfl, h2, h1]

theorem splitWords_count_le_length (l : List Char) :
    (splitWords l).length ≤ l.length := by
  have key : ∀ (n : ℕ) (l : List Char), l.length ≤ n →
      (splitWords l).length ≤ l.length := by
    intro n
    induction n with
    | zero =>
      intro l hl
      cases l with
      | nil => simp [splitWords]
      | cons a t => exact absurd hl (by simp)
    | succ n ih =>
      intro l hl
      rcases exists_space_word_decomposition l with hall | ⟨sp, w, rest, rfl, hsp, hwne, hw, hrest⟩
      · rw [splitWords_allspace hall]; simp
      · have h1 : 1 ≤ w.length := List.length_pos.mpr hwne
        have h2 : (sp ++ w ++ rest).length = sp.length + w.length + rest.length := by
          simp [List.length_append, Nat.add_assoc]
        have hlen : rest.length ≤ n := by omega
        have e2 : sp ++ w ++ rest = sp ++ (w ++ rest) := by simp [List.append_assoc]
        rw [e2, splitWords_space_left hsp, splitWords_word_left hw hwne hrest]
        have := ih rest hlen
        simp only [List.length_cons, List.length_append]
        omega
  exact key l.length l (Nat.le_refl _)

theorem hasInfixOf_subset {pat : List Char} :
    ∀ {l : List Char}, hasInfixOf pat l = true → ∀ c ∈ pat, c ∈ l := by
  intro l
  induction l with
  | nil =>
    intro h c hc
    unfold hasInfixOf at h
    rw [List.isEmpty_iff] at h
    subst h
    cases hc
  | cons d cs ih =>
    intro h c hc
    unfold hasInfixOf at h
    rw [Bool.or_eq_true] at h
    rcases h with h | h
    · exact (List.isPrefixOf_iff_prefix.mp h).subset hc
    · exact List.mem_cons_of_mem d (ih h c hc)

theorem mem_cleanNameL_keep {l : List Char} {c : Char} (hc : c ∈ cleanNameL l) :
    keepCharB c = true ∧ (jsIsSpace c = true → c = ' ') := by
  have h1 : c ∈ (collapseRuns ' ' (trimL l)).filter keepCharB := trimL_subset hc
  refine ⟨(List.mem_filter.mp h1).2, fun hs => ?_⟩
  rcases eq_or_mem_of_mem_collapseRuns (List.mem_filter.mp h1).1 with h | ⟨_, hns⟩
  · exact h
  · rw [hs] at hns; cases hns

theorem trimL_infix_self (l : List Char) : trimL l <:+: l := by
  have h1 : trimL l <+: trimLeft l := trimRight_prefix_self (trimLeft l)
  have h2 : trimLeft l <:+ l := List.dropWhile_suffix jsIsSpace
  exact List.IsInfix.trans h1.isInfix h2.isInfix

theorem cleanNameL_fixed {l : List Char}
    (hall : (splitWords (trimL l)).all wordStartsLetterB = true) :
    cleanNameL (cleanNameL l) = cleanNameL l := by
  have hchainF := chain'_filter_collapse (trimL l) hall
  have hchainE : List.Chain' (fun a b => ¬(jsIsSpace a = true ∧ jsIsSpace b = true))
      (trimL ((collapseRuns ' ' (trimL l)).filter keepCharB)) :=
    List.Chain'.infix hchainF (trimL_infix_self _)
  have hspE : ∀ c ∈ trimL ((collapseRuns ' ' (trimL l)).filter keepCharB),
      jsIsSpace c = true → c = ' ' := by
    intro c hc
    exact (mem_cleanNameL_keep (l := l) hc).2
  have hkeepE : ∀ c ∈ trimL ((collapseRuns ' ' (trimL l)).filter keepCharB),
      keepCharB c = true := by
    intro c hc
    exact (mem_cleanNameL_keep (l := l) hc).1
  show cleanNameL (trimL ((collapseRuns ' ' (trimL l)).filter keepCharB)) =
    trimL ((collapseRuns ' ' (trimL l)).filter keepCharB)
  unfold cleanNameL
  rw [trimL_idem ((collapseRuns ' ' (trimL l)).filter keepCharB)]
  rw [collapseRuns_id hchainE hspE, List.filter_eq_self.mpr hkeepE]
  exact trimL_idem _

theorem hasInvalidPatternB_of_keep {e : List Char}
    (hkeep : ∀ c ∈ e, keepCharB c = true)
    (hletter : ∃ c ∈ e, isAsciiLetterB c = true) : hasInvalidPatternB e = false := by
  obtain ⟨c0, hc0, hlc0⟩ := hletter
  have hDfalse : e.all isDigitB = false := by
    cases hD : e.all isDigitB
    · rfl
    · exfalso
      have hd := List.all_eq_true.mp hD c0 hc0
      rw [isDigitB_not_letter hd] at hlc0
      cases hlc0
  have hat : e.contains '@' = false := by
    cases hC : e.contains '@'
    · rfl
    · exfalso
      have hm : '@' ∈ e := by
        rw [← List.elem_iff]
        exact hC
      exact absurd (hkeep '@' hm) (by decide)
  have hdot : ('.' : Char) ∉ e := by
    intro hd
    exact absurd (hkeep '.' hd) (by decide)
  have hhttp : startsWithHttp e = false := by
    cases hH : startsWithHttp e
    · rfl
    · exfalso
      rw [startsWithHttp, Bool.or_eq_true] at hH
      have hcolon : (':' : Char) ∈ e := by
        rcases hH with h | h
        · exact (List.isPrefixOf_iff_prefix.mp h).subset (by decide)
        · exact (List.isPrefixOf_iff_prefix.mp h).subset (by decide)
      exact absurd (hkeep ':' hcolon) (by decide)
  have hdom : hasDomainPattern e = false := by
    cases hD : hasDomainPattern e
    · rfl
    · exfalso
      rw [hasDomainPattern] at hD
      simp only [Bool.or_eq_true] at hD
      apply hdot
      rcases hD with ((h | h) | h) | h
      · exact hasInfixOf_subset h '.' (by decide)
      · exact hasInfixOf_subset h '.' (by decide)
      · exact hasInfixOf_subset h '.' (by decide)
      · exact hasInfixOf_subset h '.' (by decide)
  have hwd : wordDotWordB e = false := by
    have hne : ∀ r', e.dropWhile isWordCharB ≠ '.' :: r' := by
      intro r' heq
      apply hdot
      exact (List.dropWhile_suffix isWordCharB).subset (by rw [heq]; simp)
    unfold wordDotWordB
    split
    · exact absurd (by assumption) (hne _)
    · rfl
  unfold hasInvalidPatternB
  rw [hDfalse, hat, hhttp, hdom, hwd]
  simp

theorem isValidNameL_cleanNameL {x : List Char} (h : isValidNameL x = true) :
    isValidNameL (cleanNameL x) = true := by
  obtain ⟨hl1, hl2, hany, hcnt, hw2, hwall, hpat⟩ := isValidNameL_elim h
  have htrim : trimL (cleanNameL x) = cleanNameL x := by
    unfold cleanNameL
    exact trimL_idem _
  have hsw : splitWords (cleanNameL x) =
      (splitWords (trimL x)).map (List.filter keepCharB) := by
    unfold cleanNameL
    rw [splitWords_trimL, splitWords_filter_keep _ (by rw [splitWords_collapseRuns]; exact hwall),
      splitWords_collapseRuns]
  have hlen_le : (cleanNameL x).length ≤ (trimL x).length := by
    unfold cleanNameL
    exact le_trans (trimL_length_le _)
      (le_trans (List.length_filter_le _ _) (collapseRuns_length_le _))
  have hcount : List.countP isAsciiLetterB (cleanNameL x) =
      List.countP isAsciiLetterB (trimL x) := by
    unfold cleanNameL
    rw [trimL_countP (fun c hc => space_not_letter hc), List.countP_filter]
    have hfun : (fun a => isAsciiLetterB a && keepCharB a) = isAsciiLetterB := by
      funext a
      cases hA : isAsciiLetterB a
      · simp [hA]
      · simp [hA, letter_keepCharB hA]
    rw [hfun, collapseRuns_countP (by decide) (fun c hc => space_not_letter hc)]
  have hswlen : (splitWords (cleanNameL x)).length = (splitWords (trimL x)).length := by
    rw [hsw, List.length_map]
  have hkeep : ∀ c ∈ cleanNameL x, keepCharB c = true :=
    fun c hc => (mem_cleanNameL_keep hc).1
  have hpos : 0 < List.countP isAsciiLetterB (cleanNameL x) := by
    rw [hcount]
    omega
  apply isValidNameL_intro (l := cleanNameL x)
  · rw [htrim]
    have h1 := splitWords_count_le_length (cleanNameL x)
    omega
  · rw [htrim]
    omega
  · rw [htrim, List.any_eq_true]
    exact List.countP_pos_iff.mp hpos
  · rw [htrim, hcount]
    omega
  · rw [htrim, hswlen]
    exact hw2
  · rw [htrim, hsw, List.all_eq_true]
    intro w' hw'
    rw [List.mem_map] at hw'
    obtain ⟨w, hwmem, rfl⟩ := hw'
    have hws : wordStartsLetterB w = true := List.all_eq_true.mp hwall w hwmem
    cases w with
    | nil => simp [wordStartsLetterB] at hws
    | cons a w2 =>
      have hla : isAsciiLetterB a = true := by simpa [wordStartsLetterB] using hws
      rw [List.filter_cons_of_pos (letter_keepCharB hla)]
      simpa [wordStartsLetterB] using hla
  · rw [htrim]
    exact hasInvalidPatternB_of_keep hkeep (List.countP_pos_iff.mp hpos)

theorem extractNamesFromLineL_valid {line : List Char} :
    ∀ x ∈ extractNamesFromLineL line, isValidNameL x = true := by
  intro x hx
  simp only [extractNamesFromLineL] at hx
  split at hx
  · rw [List.mem_singleton] at hx
    subst hx
    assumption
  · exact (List.mem_filter.mp hx).2

theorem dedupKeepFirst_subset {l : List (List Char)} :
    ∀ {x}, x ∈ dedupKeepFirst l → x ∈ l := by
  intro x hx
  unfold dedupKeepFirst at hx
  rw [List.mem_map] at hx
  obtain ⟨p, hp, hps⟩ := hx
  obtain ⟨i, y⟩ := p
  have hpe : (i, y) ∈ l.enum := (List.mem_filter.mp hp).1
  obtain ⟨h1, h2⟩ := List.mem_enum hpe
  subst hps
  rw [h2]
  exact List.getElem_mem h1

theorem dedupKeepFirst_nodup (l : List (List Char)) : (dedupKeepFirst l).Nodup := by
  have h1 : (l.enum.map Prod.fst).Nodup := by
    rw [List.enum_map_fst]
    exact List.nodup_range _
  have h2 : l.enum.Pairwise (fun p q => p.1 ≠ q.1) := List.pairwise_map.mp h1
  have h3 := h2.filter (fun p => l.indexOf p.2 == p.1)
  have h4 : (l.enum.filter (fun p => l.indexOf p.2 == p.1)).Pairwise
      (fun p q => p.2 ≠ q.2) := by
    refine List.Pairwise.imp_of_mem ?_ h3
    intro p q hp hq hne heq
    apply hne
    have hip : l.indexOf p.2 = p.1 := by
      have := List.of_mem_filter hp
      simpa using this
    have hiq : l.indexOf q.2 = q.1 := by
      have := List.of_mem_filter hq
      simpa using this
    rw [← hip, ← hiq, heq]
  unfold dedupKeepFirst
  exact List.pairwise_map.mpr h4

theorem cleanAndValidate_fixed {names : List (List Char)}
    (hv : ∀ x ∈ names, isValidNameL x = true) :
    ∀ e ∈ cleanAndValidateNamesL names, cleanNameL e = e := by
  intro e he
  unfold cleanAndValidateNamesL at he
  have he2 := dedupKeepFirst_subset he
  have he3 := (List.mem_filter.mp he2).1
  rw [List.mem_map] at he3
  obtain ⟨raw, hraw, hrw⟩ := he3
  subst hrw
  exact cleanNameL_fixed (isValidNameL_elim (hv raw hraw)).2.2.2.2.2.1

theorem cleanAndValidate_pairwise {names : List (List Char)}
    (hv : ∀ x ∈ names, isValidNameL x = true) :
    (cleanAndValidateNamesL names).Pairwise (fun a b => cleanNameL a ≠ cleanNameL b) := by
  refine List.Pairwise.imp_of_mem ?_ (dedupKeepFirst_nodup _)
  intro a b ha hb hne
  rw [cleanAndValidate_fixed hv a ha, cleanAndValidate_fixed hv b hb]
  exact hne

theorem extract_candidates_valid (text : List Char) :
    ∀ x ∈ (((splitOnChars ['\n'] text).map trimL).filter (fun l => !l.isEmpty)).flatMap
        (fun line => if isHeaderLineL line then [] else extractNamesFromLineL line),
      isValidNameL x = true := by
  intro x hx
  rw [List.mem_flatMap] at hx
  obtain ⟨line, _, hx2⟩ := hx
  by_cases hh : isHeaderLineL line = true
  · rw [if_pos hh] at hx2
    cases hx2
  · rw [if_neg hh] at hx2
    exact extractNamesFromLineL_valid x hx2

theorem extractNamesFromTextL_pairwise (text : List Char) :
    (extractNamesFromTextL text).Pairwise (fun a b => cleanNameL a ≠ cleanNameL b) :=
  cleanAndValidate_pairwise (extract_candidates_valid text)

theorem extractNamesFromTextL_fixed (text : List Char) :
    ∀ e ∈ extractNamesFromTextL text, cleanNameL e = e :=
  cleanAndValidate_fixed (extract_candidates_valid text)

theorem parseCsvFileL_pairwise (text : List Char) :
    (parseCsvFileL text).Pairwise (fun a b => cleanNameL a ≠ cleanNameL b) := by
  unfold parseCsvFileL
  simp only []
  split
  · exact extractNamesFromTextL_pairwise text
  · refine List.Pairwise.imp_of_mem ?_ (dedupKeepFirst_nodup _)
    intro a b ha hb hne
    have hfix : ∀ e ∈ (((splitOnChars ['\n'] text).map trimL).filter
        (fun l => !l.isEmpty)).flatMap (fun line =>
          ((splitOnChars [',', ';', '\t'] line).map csvCellClean).flatMap
            extractNamesFromTextL), cleanNameL e = e := by
      intro e he
      rw [List.mem_flatMap] at he
      obtain ⟨line, _, he2⟩ := he
      rw [List.mem_flatMap] at he2
      obtain ⟨cell, _, he3⟩ := he2
      exact extractNamesFromTextL_fixed cell e he3
    rw [hfix a (dedupKeepFirst_subset ha), hfix b (dedupKeepFirst_subset hb)]
    exact hne

/-- C4: extraction never returns two entries with the same normalized form —
the returned entries (already normalized by `cleanName` and deduplicated by
the first-occurrence filter) are pairwise distinct even after re-normalizing
— for both plain-text and CSV extraction; and the claim's concrete instance:
["Maria Garcia", "John Smith", "Maria Garcia"] yields the first occurrences
in first-seen order. -/
theorem extraction_no_duplicate_normalized :
    (∀ s : String, (extractNamesFromText s).Pairwise (fun a b => cleanName a ≠ cleanName b)) ∧
    (∀ s : String, (parseCsvFile s).Pairwise (fun a b => cleanName a ≠ cleanName b)) ∧
    extractNamesFromText "Maria Garcia\nJohn Smith\nMaria Garcia" =
      ["Maria Garcia", "John Smith"] := by
  have hmk : ∀ (core : List (List Char)),
      core.Pairwise (fun a b => cleanNameL a ≠ cleanNameL b) →
      (core.map (fun l => (⟨l⟩ : String))).Pairwise
        (fun a b => cleanName a ≠ cleanName b) := by
    intro core hp
    rw [List.pairwise_map]
    refine List.Pairwise.imp_of_mem ?_ hp
    intro a b _ _ hne heq
    apply hne
    exact congrArg String.data heq
  refine ⟨?_, ?_, by decide⟩
  · intro s
    exact hmk _ (extractNamesFromTextL_pairwise s.toList)
  · intro s
    exact hmk _ (parseCsvFileL_pairwise s.toList)

/-- C9: on every record the classifier accepts, classification is
idempotent: classifying the normalized form yields the same result as
classifying the original. -/
theorem classify_idempotent (x : String) (h : isValidName x = true) :
    classify (cleanName x) = classify x := by
  have helim := isValidNameL_elim (show isValidNameL x.toList = true from h)
  have hfix : cleanNameL (cleanNameL x.toList) = cleanNameL x.toList :=
    cleanNameL_fixed helim.2.2.2.2.2.1
  have hv2 : isValidName (cleanName x) = true :=
    isValidNameL_cleanNameL (show isValidNameL x.toList = true from h)
  unfold classify
  rw [if_pos hv2, if_pos h]
  have hcc : cleanName (cleanName x) = cleanName x := by
    show (⟨cleanNameL (cleanNameL x.toList)⟩ : String) = ⟨cleanNameL x.toList⟩
    rw [hfix]
  rw [hcc]

/-- C9 (witness): idempotence at a concrete accepted record. -/
theorem classify_idempotent_witness :
    classify (cleanName "John Smith") = classify "John Smith" :=
  classify_idempotent "John Smith" (by decide)
